import Mathlib

/-!
Verification of the chunked-LLM-review pipeline (`main.py`).

Text is embedded as `List Char`; Python slices `text[a:b]` become
`pySlice`, machine floats used for backoff arithmetic become `ℚ`, and
the HTTP layer is abstracted as an oracle of per-attempt events.
-/

/-- Python slice `text[a:b]` for non-negative bounds (clamps like Python). -/
def pySlice (text : List Char) (a b : Nat) : List Char :=
  (text.drop a).take (b - a)

/-- The diff-hunk marker searched for by `chunk_text`: newline followed by `@@`. -/
def markerChars : List Char := ['\n', '@', '@']

/-- The marker occurs at absolute index `i` of `text` (all three characters). -/
def markerAt (text : List Char) (i : Nat) : Prop :=
  pySlice text i (i + 3) = markerChars

instance (text : List Char) (i : Nat) : Decidable (markerAt text i) := by
  unfold markerAt; infer_instance

/-- Downward scan for the marker over positions `start + k - 1, …, start`:
the engine behind Python's `str.rfind`. -/
def rfindAux (text : List Char) (start : Nat) : Nat → Option Nat
  | 0 => none
  | k + 1 =>
    if pySlice text (start + k) (start + k + 3) = markerChars then some (start + k)
    else rfindAux text start k

/-- `text.rfind('\n@@', start, e)`: greatest `i` with `start ≤ i`, `i + 3 ≤ e`
and the marker at `i` (`none` for Python's `-1`). -/
def rfind (text : List Char) (start e : Nat) : Option Nat :=
  rfindAux text start (e - 2 - start)

/-- The cut index chosen by one iteration of the `chunk_text` loop:
the last in-window hunk marker when it lies strictly past the midpoint
`start + max_chars / 2`, otherwise the naive boundary
`min (start + max_chars) text.length`. -/
def cutPoint (text : List Char) (max_chars start : Nat) : Nat :=
  match rfind text start (min (start + max_chars) text.length) with
  | none => min (start + max_chars) text.length
  | some c =>
    if c ≤ start + max_chars / 2 then min (start + max_chars) text.length else c

/-- The `while` loop of `chunk_text` plus the trailing-remainder append.
The budget argument counts how many fragments the loop may still emit
(`max_chunks - len(chunks)`); when it reaches 0 with text remaining, the
final fragment `text[start : start + max_chars]` is appended, dropping
anything beyond it. -/
def chunkLoop (text : List Char) (max_chars : Nat) : Nat → Nat → List (List Char)
  | start, 0 =>
    if start < text.length then [pySlice text start (start + max_chars)] else []
  | start, b + 1 =>
    if start < text.length then
      pySlice text start (cutPoint text max_chars start) ::
        chunkLoop text max_chars (cutPoint text max_chars start) b
    else []

/-- `chunk_text(text, max_chars, max_chunks)` from `main.py`. -/
def chunk_text (text : List Char) (max_chars max_chunks : Nat) : List (List Char) :=
  if text.length ≤ max_chars then [text]
  else chunkLoop text max_chars 0 max_chunks

lemma rfindAux_some (text : List Char) (start : Nat) :
    ∀ k c, rfindAux text start k = some c →
      start ≤ c ∧ c < start + k ∧ markerAt text c ∧
        ∀ j, c < j → j < start + k → ¬ markerAt text j := by
  intro k
  induction k with
  | zero => intro c h; simp [rfindAux] at h
  | succ k ih =>
    intro c h
    by_cases hm : pySlice text (start + k) (start + k + 3) = markerChars
    · simp [rfindAux, hm] at h
      subst h
      refine ⟨Nat.le_add_right _ _, by omega, hm, ?_⟩
      intro j hj1 hj2
      omega
    · simp [rfindAux, hm] at h
      obtain ⟨h1, h2, h3, h4⟩ := ih c h
      refine ⟨h1, by omega, h3, ?_⟩
      intro j hj1 hj2
      rcases Nat.lt_or_ge j (start + k) with hlt | hge
      · exact h4 j hj1 hlt
      · have : j = start + k := by omega
        subst this
        exact hm

lemma rfindAux_none (text : List Char) (start : Nat) :
    ∀ k, rfindAux text start k = none →
      ∀ j, start ≤ j → j < start + k → ¬ markerAt text j := by
  intro k
  induction k with
  | zero => intro _ j h1 h2; omega
  | succ k ih =>
    intro h j h1 h2
    by_cases hm : pySlice text (start + k) (start + k + 3) = markerChars
    · simp [rfindAux, hm] at h
    · simp [rfindAux, hm] at h
      rcases Nat.lt_or_ge j (start + k) with hlt | hge
      · exact ih h j h1 hlt
      · have : j = start + k := by omega
        subst this
        exact hm

lemma rfind_some (text : List Char) (start e c : Nat)
    (h : rfind text start e = some c) :
    start ≤ c ∧ c + 3 ≤ e ∧ markerAt text c ∧
      ∀ j, c < j → j + 3 ≤ e → ¬ markerAt text j := by
  unfold rfind at h
  obtain ⟨h1, h2, h3, h4⟩ := rfindAux_some text start _ c h
  have hk : e - 2 - start ≠ 0 := by
    intro hz; rw [hz] at h; simp [rfindAux] at h
  refine ⟨h1, by omega, h3, ?_⟩
  intro j hj1 hj2
  exact h4 j hj1 (by omega)

lemma rfind_none (text : List Char) (start e : Nat)
    (h : rfind text start e = none) :
    ∀ j, start ≤ j → j + 3 ≤ e → ¬ markerAt text j := by
  unfold rfind at h
  intro j h1 h2
  exact rfindAux_none text start _ h j h1 (by omega)

lemma rfind_eq_some_of_greatest (text : List Char) (start e m : Nat)
    (hm : markerAt text m) (h1 : start ≤ m) (h2 : m + 3 ≤ e)
    (hmax : ∀ j, markerAt text j → start ≤ j → j + 3 ≤ e → j ≤ m) :
    rfind text start e = some m := by
  match hc : rfind text start e with
  | none =>
    exact absurd hm (rfind_none text start e hc m h1 h2)
  | some c =>
    obtain ⟨hc1, hc2, hc3, hc4⟩ := rfind_some text start e c hc
    have hle : c ≤ m := hmax c hc3 hc1 hc2
    have hge : ¬ c < m := fun hlt => hc4 m hlt h2 hm
    have : c = m := by omega
    rw [this]

lemma cutPoint_le (text : List Char) (max_chars start : Nat)
    (h : start < text.length) :
    start ≤ cutPoint text max_chars start ∧
      cutPoint text max_chars start ≤ min (start + max_chars) text.length := by
  have hmin3 : start ≤ min (start + max_chars) text.length :=
    Nat.le_min.mpr ⟨by omega, by omega⟩
  unfold cutPoint
  cases hc : rfind text start (min (start + max_chars) text.length) with
  | none => exact ⟨hmin3, le_refl _⟩
  | some c =>
    obtain ⟨h1, h2, _, _⟩ := rfind_some text start _ c hc
    by_cases hmid : c ≤ start + max_chars / 2
    · simp only [hmid, if_true]
      exact ⟨hmin3, le_refl _⟩
    · simp only [hmid, if_false]
      exact ⟨h1, by omega⟩

lemma pySlice_clamp (text : List Char) (a b : Nat) :
    pySlice text a b = pySlice text a (min b text.length) := by
  unfold pySlice
  rw [List.take_eq_take]
  simp only [List.length_drop]
  omega

lemma pySlice_of_le (text : List Char) (a b : Nat) (h : text.length ≤ a) :
    pySlice text a b = [] := by
  unfold pySlice
  rw [List.drop_eq_nil_of_le h]
  simp

lemma pySlice_append (text : List Char) (a m c : Nat) (h1 : a ≤ m) (h2 : m ≤ c) :
    pySlice text a m ++ pySlice text m c = pySlice text a c := by
  unfold pySlice
  have hc : c - a = (m - a) + (c - m) := by omega
  rw [hc, List.take_add]
  congr 1
  symm
  congr 1
  rw [List.drop_drop]
  congr 1
  omega

/-- The value of `start` when the `while` loop of `chunk_text` exits, after at
most the given budget of iterations: the offset from which the trailing
fragment (if any) is taken. -/
def loopEnd (text : List Char) (max_chars : Nat) : Nat → Nat → Nat
  | start, 0 => start
  | start, b + 1 =>
    if start < text.length then loopEnd text max_chars (cutPoint text max_chars start) b
    else start

lemma loopEnd_ge (text : List Char) (max_chars : Nat) :
    ∀ b start, start ≤ loopEnd text max_chars start b := by
  intro b
  induction b with
  | zero => intro start; simp [loopEnd]
  | succ b ih =>
    intro start
    by_cases h : start < text.length
    · have hc := (cutPoint_le text max_chars start h).1
      have he := ih (cutPoint text max_chars start)
      simp only [loopEnd, h, if_true]
      omega
    · simp [loopEnd, h]

lemma chunkLoop_flatten (text : List Char) (max_chars : Nat) :
    ∀ b start, (chunkLoop text max_chars start b).flatten =
      pySlice text start (min (loopEnd text max_chars start b + max_chars) text.length) := by
  intro b
  induction b with
  | zero =>
    intro start
    by_cases h : start < text.length
    · simp only [chunkLoop, h, if_true, List.flatten_cons, List.flatten_nil,
        List.append_nil, loopEnd]
      exact pySlice_clamp text start (start + max_chars)
    · simp only [chunkLoop, h, if_false, List.flatten_nil, loopEnd]
      exact (pySlice_of_le text start _ (by omega)).symm
  | succ b ih =>
    intro start
    by_cases h : start < text.length
    · obtain ⟨hc1, hc2⟩ := cutPoint_le text max_chars start h
      have hclen : cutPoint text max_chars start ≤ text.length := by
        have := Nat.min_le_right (start + max_chars) text.length
        omega
      have hge := loopEnd_ge text max_chars b (cutPoint text max_chars start)
      simp only [chunkLoop, h, if_true, List.flatten_cons, ih, loopEnd]
      exact pySlice_append text start (cutPoint text max_chars start) _ hc1 (by omega)
    · simp only [chunkLoop, h, if_false, List.flatten_nil, loopEnd]
      exact (pySlice_of_le text start _ (by omega)).symm

lemma chunkLoop_ne_nil (text : List Char) (max_chars : Nat) :
    ∀ b start, start < text.length → chunkLoop text max_chars start b ≠ [] := by
  intro b start h
  cases b with
  | zero => simp [chunkLoop, h]
  | succ b => simp [chunkLoop, h]

lemma chunkLoop_getLast (text : List Char) (max_chars : Nat) :
    ∀ b start, loopEnd text max_chars start b < text.length →
      (chunkLoop text max_chars start b).getLast? =
        some (pySlice text (loopEnd text max_chars start b)
          (loopEnd text max_chars start b + max_chars)) := by
  intro b
  induction b with
  | zero =>
    intro start h
    simp only [loopEnd] at h ⊢
    simp [chunkLoop, h]
  | succ b ih =>
    intro start h
    by_cases hs : start < text.length
    · simp only [loopEnd, hs, if_true] at h ⊢
      have hrec := ih (cutPoint text max_chars start) h
      have hcl : cutPoint text max_chars start < text.length := by
        have := loopEnd_ge text max_chars b (cutPoint text max_chars start)
        omega
      have hne := chunkLoop_ne_nil text max_chars b (cutPoint text max_chars start) hcl
      simp only [chunkLoop, hs, if_true]
      cases hl : chunkLoop text max_chars (cutPoint text max_chars start) b with
      | nil => exact absurd hl hne
      | cons y ys =>
        rw [hl] at hrec
        rw [List.getLast?_cons_cons]
        exact hrec
    · simp only [loopEnd, hs, if_false] at h

lemma chunkLoop_length (text : List Char) (max_chars : Nat) :
    ∀ b start, (chunkLoop text max_chars start b).length ≤ b + 1 := by
  intro b
  induction b with
  | zero =>
    intro start
    by_cases h : start < text.length <;> simp [chunkLoop, h]
  | succ b ih =>
    intro start
    by_cases h : start < text.length
    · simp only [chunkLoop, h, if_true, List.length_cons]
      have := ih (cutPoint text max_chars start)
      omega
    · simp [chunkLoop, h]

lemma chunkLoop_mem_length (text : List Char) (max_chars : Nat) :
    ∀ b start c, c ∈ chunkLoop text max_chars start b → c.length ≤ max_chars := by
  intro b
  induction b with
  | zero =>
    intro start c hc
    by_cases h : start < text.length
    · simp [chunkLoop, h] at hc
      subst hc
      simp [pySlice]
    · simp [chunkLoop, h] at hc
  | succ b ih =>
    intro start c hc
    by_cases h : start < text.length
    · simp only [chunkLoop, h, if_true, List.mem_cons] at hc
      rcases hc with hc | hc
      · subst hc
        obtain ⟨hc1, hc2⟩ := cutPoint_le text max_chars start h
        simp [pySlice]
        have : cutPoint text max_chars start - start ≤ max_chars := by
          have := Nat.min_le_left (start + max_chars) text.length
          omega
        omega
      · exact ih _ c hc
    · simp [chunkLoop, h] at hc

lemma chunk_text_ne_nil (text : List Char) (max_chars max_chunks : Nat) :
    chunk_text text max_chars max_chunks ≠ [] := by
  unfold chunk_text
  by_cases h : text.length ≤ max_chars
  · simp [h]
  · simp only [h, if_false]
    have h0 : 0 < text.length := by omega
    cases max_chunks with
    | zero => simp [chunkLoop, h0]
    | succ b => simp [chunkLoop, h0]

lemma rfind_eq_none_of_no_marker (text : List Char) (start e : Nat)
    (h : ∀ j, start ≤ j → j + 3 ≤ e → ¬ markerAt text j) :
    rfind text start e = none := by
  cases hc : rfind text start e with
  | none => rfl
  | some c =>
    obtain ⟨h1, h2, h3, _⟩ := rfind_some text start e c hc
    exact absurd h3 (h c h1 h2)

/-- C8: an input whose length is at most `max_chars` is returned as a single
fragment equal to the whole input. -/
theorem chunk_text_single (text : List Char) (max_chars max_chunks : Nat)
    (h : text.length ≤ max_chars) :
    chunk_text text max_chars max_chunks = [text] := by
  simp [chunk_text, h]

/-- Witness for C8 at the concrete input `"hi"` with `max_chars = 5`. -/
theorem chunk_text_single_witness :
    (['h', 'i'] : List Char).length ≤ 5 ∧
      chunk_text ['h', 'i'] 5 3 = [['h', 'i']] :=
  ⟨by decide, chunk_text_single ['h', 'i'] 5 3 (by decide)⟩

/-- C9: every fragment produced by `chunk_text` has length at most `max_chars`. -/
theorem chunk_text_fragment_length (text : List Char) (max_chars max_chunks : Nat)
    (hpos : 0 < max_chars) :
    ∀ c ∈ chunk_text text max_chars max_chunks, c.length ≤ max_chars := by
  intro c hc
  unfold chunk_text at hc
  by_cases h : text.length ≤ max_chars
  · simp only [h, if_true, List.mem_singleton] at hc
    subst hc
    exact h
  · simp only [h, if_false] at hc
    exact chunkLoop_mem_length text max_chars max_chunks 0 c hc

/-- Witness for C9 at the concrete input `"abc"` with `max_chars = 2`. -/
theorem chunk_text_fragment_length_witness :
    (0 : Nat) < 2 ∧
      ∀ c ∈ chunk_text ['a', 'b', 'c'] 2 1, c.length ≤ 2 :=
  ⟨by decide, chunk_text_fragment_length ['a', 'b', 'c'] 2 1 (by decide)⟩

/-- C1 counterexample: with `text = "aaaaa"`, `max_chars = 1`, `max_chunks = 2`
(all side conditions of the claim hold), the concatenation of the fragments is
`"aaa" ≠ "aaaaa"`: the trailing-remainder fragment dropped the final two
characters, so the fragments do not reconstruct the input. -/
theorem chunk_text_concat_cex :
    (0 : Nat) < 1 ∧ (0 : Nat) < 2 ∧
      1 < (['a', 'a', 'a', 'a', 'a'] : List Char).length ∧
      (chunk_text ['a', 'a', 'a', 'a', 'a'] 1 2).flatten ≠ ['a', 'a', 'a', 'a', 'a'] ∧
      (chunk_text ['a', 'a', 'a', 'a', 'a'] 1 2).length ≤ 2 + 1 := by
  decide

/-- C1 (amended): for input longer than `max_chars` (with positive bounds),
the fragment count is at most `max_chunks + 1` and, writing `s` for the offset
at which the chunking loop exits, the concatenation of the fragments equals
`text.take (min (s + max_chars) text.length)`. Hence the concatenation equals
the whole input whenever at most `max_chars` characters remain at loop exit,
and otherwise it equals `text.take (s + max_chars)`: the final fragment is
exactly the next `max_chars` characters `text[s : s + max_chars]` and
everything beyond them is dropped. -/
theorem chunk_text_concat_amended (text : List Char) (max_chars max_chunks : Nat)
    (h1 : 0 < max_chars) (h2 : 0 < max_chunks) (h3 : max_chars < text.length) :
    (chunk_text text max_chars max_chunks).length ≤ max_chunks + 1 ∧
    (chunk_text text max_chars max_chunks).flatten =
      text.take (min (loopEnd text max_chars 0 max_chunks + max_chars) text.length) ∧
    (text.length ≤ loopEnd text max_chars 0 max_chunks + max_chars →
      (chunk_text text max_chars max_chunks).flatten = text) ∧
    (loopEnd text max_chars 0 max_chunks + max_chars < text.length →
      (chunk_text text max_chars max_chunks).flatten =
        text.take (loopEnd text max_chars 0 max_chunks + max_chars) ∧
      (chunk_text text max_chars max_chunks).getLast? =
        some (pySlice text (loopEnd text max_chars 0 max_chunks)
          (loopEnd text max_chars 0 max_chunks + max_chars))) := by
  have hnot : ¬ text.length ≤ max_chars := by omega
  have hflat : (chunk_text text max_chars max_chunks).flatten =
      text.take (min (loopEnd text max_chars 0 max_chunks + max_chars) text.length) := by
    unfold chunk_text
    simp only [hnot, if_false]
    rw [chunkLoop_flatten text max_chars max_chunks 0]
    unfold pySlice
    simp
  refine ⟨?_, hflat, ?_, ?_⟩
  · unfold chunk_text
    simp only [hnot, if_false]
    exact chunkLoop_length text max_chars max_chunks 0
  · intro hle
    rw [hflat]
    have hm : min (loopEnd text max_chars 0 max_chunks + max_chars) text.length =
        text.length := by omega
    rw [hm, List.take_length]
  · intro hlt
    constructor
    · rw [hflat]
      have hm : min (loopEnd text max_chars 0 max_chunks + max_chars) text.length =
          loopEnd text max_chars 0 max_chunks + max_chars := by omega
      rw [hm]
    · unfold chunk_text
      simp only [hnot, if_false]
      exact chunkLoop_getLast text max_chars max_chunks 0 (by omega)

/-- Witness for the amended C1 at `text = "aaaaa"`, `max_chars = 1`,
`max_chunks = 2`: the loop exits at offset 2 with 3 characters left, so the
concatenation is `text.take 3` and the final fragment is `text[2:3]`. -/
theorem chunk_text_concat_amended_witness :
    (0 : Nat) < 1 ∧ (0 : Nat) < 2 ∧
      1 < (['a', 'a', 'a', 'a', 'a'] : List Char).length ∧
      (chunk_text ['a', 'a', 'a', 'a', 'a'] 1 2).flatten =
        (['a', 'a', 'a', 'a', 'a'] : List Char).take
          (loopEnd ['a', 'a', 'a', 'a', 'a'] 1 0 2 + 1) ∧
      (chunk_text ['a', 'a', 'a', 'a', 'a'] 1 2).getLast? =
        some (pySlice ['a', 'a', 'a', 'a', 'a'] (loopEnd ['a', 'a', 'a', 'a', 'a'] 1 0 2)
          (loopEnd ['a', 'a', 'a', 'a', 'a'] 1 0 2 + 1)) := by
  have h := chunk_text_concat_amended ['a', 'a', 'a', 'a', 'a'] 1 2
    (by decide) (by decide) (by decide)
  have h2 := h.2.2.2 (by decide)
  exact ⟨by decide, by decide, by decide, h2.1, h2.2⟩

/-- C2: in each loop iteration over not-yet-exhausted input, the emitted
fragment runs from `start` to the chosen cut; the cut is the last in-window
hunk marker when that marker lies strictly past `start + max_chars / 2`, and
otherwise (marker at or before the midpoint, or no in-window marker) it is the
naive boundary `min (start + max_chars) text.length`. -/
theorem chunk_cut_boundary (text : List Char) (max_chars start b : Nat)
    (hstart : start < text.length) :
    (chunkLoop text max_chars start (b + 1) =
       pySlice text start (cutPoint text max_chars start) ::
         chunkLoop text max_chars (cutPoint text max_chars start) b)
    ∧ (∀ m, markerAt text m → start ≤ m →
         m + 3 ≤ min (start + max_chars) text.length →
         (∀ j, markerAt text j → start ≤ j →
            j + 3 ≤ min (start + max_chars) text.length → j ≤ m) →
         (start + max_chars / 2 < m → cutPoint text max_chars start = m)
         ∧ (m ≤ start + max_chars / 2 →
              cutPoint text max_chars start = min (start + max_chars) text.length))
    ∧ ((∀ j, start ≤ j → j + 3 ≤ min (start + max_chars) text.length →
          ¬ markerAt text j) →
         cutPoint text max_chars start = min (start + max_chars) text.length) := by
  refine ⟨by simp [chunkLoop, hstart], ?_, ?_⟩
  · intro m hm hm1 hm2 hmax
    have hr : rfind text start (min (start + max_chars) text.length) = some m :=
      rfind_eq_some_of_greatest text start _ m hm hm1 hm2 hmax
    constructor
    · intro hmid
      unfold cutPoint
      rw [hr]
      simp only [if_neg (by omega : ¬ m ≤ start + max_chars / 2)]
    · intro hmid
      unfold cutPoint
      rw [hr]
      simp only [if_pos hmid]
  · intro hnone
    have hr : rfind text start (min (start + max_chars) text.length) = none :=
      rfind_eq_none_of_no_marker text start _ hnone
    unfold cutPoint
    rw [hr]

/-- Witness for C2: in `"0123456\n@@abcd"` with `max_chars = 10`, the last
in-window marker sits at index 7, strictly past the midpoint 5, so the cut
falls at index 7. -/
theorem chunk_cut_boundary_witness :
    (0 : Nat) < (['0', '1', '2', '3', '4', '5', '6', '\n', '@', '@', 'a', 'b', 'c', 'd'] : List Char).length ∧
      cutPoint ['0', '1', '2', '3', '4', '5', '6', '\n', '@', '@', 'a', 'b', 'c', 'd'] 10 0 = 7 := by
  refine ⟨by decide, ?_⟩
  exact ((chunk_cut_boundary
      ['0', '1', '2', '3', '4', '5', '6', '\n', '@', '@', 'a', 'b', 'c', 'd'] 10 0 0
      (by decide)).2.1 7 (by decide) (by decide) (by decide)
      (fun j _ _ hj => by omega)).1 (by decide)

/-- Fixed per-fragment review instructions (`USER_INSTRUCTIONS` in `main.py`). -/
def USER_INSTRUCTIONS : List Char :=
  ("Explain intent of the following git diff. Summarize per-file themes when possible. Highlight: (1) high-level intent, (2) notable APIs/functions touched, (3) risky areas, (4) testing implications, (5) migration or rollback notes.").toList

/-- Opening of every user message: the fixed instructions plus the fenced
diff-block opener. -/
def ucOpen : List Char := USER_INSTRUCTIONS ++ ("\n\n```diff\n").toList

/-- Closing fence of every user message. -/
def ucClose : List Char := ("\n```").toList

/-- The user-message content built by `llm_once` around a diff fragment. -/
def userContent (frag : List Char) : List Char := ucOpen ++ frag ++ ucClose

/-- One completion call, abstracted over the remote model: the oracle maps the
user-message content to the assistant text. -/
def llm_once (oracle : List Char → List Char) (frag : List Char) : List Char :=
  oracle (userContent frag)

/-- The label prepended to the summary of fragment `i` (1-indexed). -/
def partLabel (i : Nat) : List Char := ("### Part ").toList ++ (Nat.repr i).toList

/-- Labelled per-fragment summaries, as built by the loop
`for i, ch in enumerate(parts, 1)` of `multiple_pass`. -/
def mkSummaries (oracle : List Char → List Char) : Nat → List (List Char) → List (List Char)
  | _, [] => []
  | i, ch :: rest =>
    (partLabel i ++ ['\n'] ++ llm_once oracle ch) :: mkSummaries oracle (i + 1) rest

/-- Python `sep.join(xs)`. -/
def pyJoin (sep : List Char) : List (List Char) → List Char
  | [] => []
  | [x] => x
  | x :: xs => x ++ sep ++ pyJoin sep xs

/-- Preamble of the synthesis prompt in `multiple_pass`. -/
def synthHeader : List Char :=
  ("Combine the following chunk summaries into a single coherent review. Avoid repetition, call out cross-file risks, and propose concrete tests.\n\n").toList

/-- `multiple_pass` from `main.py`, instrumented: the second component logs the
user-message content of every completion call, in order. -/
def multiple_pass (oracle : List Char → List Char) (diff_text : List Char)
    (max_chars max_chunks : Nat) : List Char × List (List Char) :=
  match chunk_text diff_text max_chars max_chunks with
  | [p] => (llm_once oracle p, [userContent p])
  | parts =>
    (llm_once oracle (synthHeader ++ pyJoin ['\n', '\n'] (mkSummaries oracle 1 parts)),
      parts.map userContent ++
        [userContent (synthHeader ++ pyJoin ['\n', '\n'] (mkSummaries oracle 1 parts))])

/-- The needle strings occur in the haystack in order, disjointly. -/
def appearsInOrder : List (List Char) → List Char → Prop
  | [], _ => True
  | n :: ns, hay => ∃ pre post, hay = pre ++ n ++ post ∧ appearsInOrder ns post

/-- The expected labels `### Part i, ### Part (i+1), …` (`n` of them). -/
def labelsFrom : Nat → Nat → List (List Char)
  | _, 0 => []
  | i, n + 1 => partLabel i :: labelsFrom (i + 1) n

lemma appearsInOrder_prepend (pre : List Char) (ns : List (List Char)) (hay : List Char)
    (h : appearsInOrder ns hay) : appearsInOrder ns (pre ++ hay) := by
  cases ns with
  | nil => trivial
  | cons n ns =>
    obtain ⟨p, q, rfl, h2⟩ := h
    exact ⟨pre ++ p, q, by simp, h2⟩

lemma appearsInOrder_append_right (suf : List Char) :
    ∀ (ns : List (List Char)) (hay : List Char),
      appearsInOrder ns hay → appearsInOrder ns (hay ++ suf) := by
  intro ns
  induction ns with
  | nil => intro hay _; trivial
  | cons n ns ih =>
    intro hay h
    obtain ⟨p, q, rfl, h2⟩ := h
    exact ⟨p, q ++ suf, by simp, ih q h2⟩

lemma labels_in_pyJoin (oracle : List Char → List Char) (sep : List Char) :
    ∀ (chs : List (List Char)) (i : Nat),
      appearsInOrder (labelsFrom i chs.length) (pyJoin sep (mkSummaries oracle i chs)) := by
  intro chs
  induction chs with
  | nil => intro i; simp [labelsFrom, appearsInOrder]
  | cons ch rest ih =>
    intro i
    cases rest with
    | nil =>
      refine ⟨[], ['\n'] ++ llm_once oracle ch, by simp [mkSummaries, pyJoin], ?_⟩
      simp [labelsFrom, appearsInOrder]
    | cons r rs =>
      have hjoin : pyJoin sep (mkSummaries oracle i (ch :: r :: rs)) =
          (partLabel i ++ ['\n'] ++ llm_once oracle ch) ++ sep ++
            pyJoin sep (mkSummaries oracle (i + 1) (r :: rs)) := by
        simp [mkSummaries, pyJoin]
      rw [hjoin]
      refine ⟨[], ['\n'] ++ llm_once oracle ch ++ sep ++
        pyJoin sep (mkSummaries oracle (i + 1) (r :: rs)), by simp, ?_⟩
      have h2 := appearsInOrder_prepend (['\n'] ++ llm_once oracle ch ++ sep) _ _
        (ih (i + 1))
      simpa [List.append_assoc, List.length_cons] using h2

/-- C3: the orchestrator makes one completion call per fragment (the logged
calls begin with the per-fragment user messages in fragment order), plus
exactly one synthesis call iff more than one fragment was produced; when
`N > 1` the synthesis call (the last logged call) contains the labels
`### Part 1` through `### Part N` in order. -/
theorem multiple_pass_calls (oracle : List Char → List Char) (diff_text : List Char)
    (max_chars max_chunks : Nat) :
    (multiple_pass oracle diff_text max_chars max_chunks).2.length =
      (chunk_text diff_text max_chars max_chunks).length +
        (if 1 < (chunk_text diff_text max_chars max_chunks).length then 1 else 0) ∧
    (multiple_pass oracle diff_text max_chars max_chunks).2.take
        (chunk_text diff_text max_chars max_chunks).length =
      (chunk_text diff_text max_chars max_chunks).map userContent ∧
    (1 < (chunk_text diff_text max_chars max_chunks).length →
      ∃ last, (multiple_pass oracle diff_text max_chars max_chunks).2.getLast? = some last ∧
        appearsInOrder (labelsFrom 1 (chunk_text diff_text max_chars max_chunks).length) last) := by
  unfold multiple_pass
  cases hp : chunk_text diff_text max_chars max_chunks with
  | nil => exact absurd hp (chunk_text_ne_nil diff_text max_chars max_chunks)
  | cons p rest =>
    cases rest with
    | nil => simp
    | cons q rs =>
      refine ⟨by simp, ?_, ?_⟩
      · have hlen : (p :: q :: rs).length = ((p :: q :: rs).map userContent).length := by
          simp
        rw [hlen, List.take_left]
      · intro _
        refine ⟨userContent (synthHeader ++
          pyJoin ['\n', '\n'] (mkSummaries oracle 1 (p :: q :: rs))), ?_, ?_⟩
        · show (List.map userContent (p :: q :: rs) ++
            [userContent (synthHeader ++
              pyJoin ['\n', '\n'] (mkSummaries oracle 1 (p :: q :: rs)))]).getLast? = _
          rw [List.getLast?_append_cons]
          rfl
        · have h0 := labels_in_pyJoin oracle ['\n', '\n'] (p :: q :: rs) 1
          have h1 := appearsInOrder_append_right ucClose _ _ h0
          have h2 := appearsInOrder_prepend (ucOpen ++ synthHeader) _ _ h1
          simpa [userContent, List.append_assoc] using h2

/-- Witness for C3: a diff of five characters with `max_chars = 2`,
`max_chunks = 2` produces three fragments, hence four logged calls, and the
last call contains the three part labels in order. -/
theorem multiple_pass_calls_witness :
    (multiple_pass (fun _ => []) ['a', 'a', 'a', 'a', 'a'] 2 2).2.length = 4 ∧
      ∃ last, (multiple_pass (fun _ => []) ['a', 'a', 'a', 'a', 'a'] 2 2).2.getLast? = some last ∧
        appearsInOrder
          (labelsFrom 1 (chunk_text ['a', 'a', 'a', 'a', 'a'] 2 2).length) last := by
  have h := multiple_pass_calls (fun _ => []) ['a', 'a', 'a', 'a', 'a'] 2 2
  refine ⟨?_, h.2.2 (by decide)⟩
  rw [h.1]
  decide

/-- Statuses retried by `call_llm` (`RETRY_STATUS` in `main.py`). -/
def RETRY_STATUS : List Nat := [408, 409, 425, 429, 500, 502, 503, 504]

/-- JSON values, for the parsed response body. -/
inductive Json where
  | null
  | bool (b : Bool)
  | num (q : ℚ)
  | str (s : List Char)
  | arr (xs : List Json)
  | obj (kvs : List (List Char × Json))

/-- Python exceptions that the content extraction of `call_llm` can raise
(uncaught, hence fatal). -/
inductive PyError where
  | attrError
  | indexError
  | keyError
  | typeError
deriving DecidableEq

/-- Whitespace for Python `str.strip`. -/
def isPySpace (c : Char) : Bool :=
  c == ' ' || c == '\t' || c == '\n' || c == '\r' ||
    c == Char.ofNat 11 || c == Char.ofNat 12

/-- Python `s.strip()`. -/
def pyStrip (s : List Char) : List Char :=
  ((s.dropWhile isPySpace).reverse.dropWhile isPySpace).reverse

/-- First value bound to `key`, mirroring Python dict lookup order. -/
def lookupKv (key : List Char) : List (List Char × Json) → Option Json
  | [] => none
  | (k, v) :: rest => if k = key then some v else lookupKv key rest

/-- Python `d.get(key, dflt)`: `AttributeError` unless `d` is a dict. -/
def pyGetD (d : Json) (key : List Char) (dflt : Json) : Except PyError Json :=
  match d with
  | .obj kvs => .ok ((lookupKv key kvs).getD dflt)
  | _ => .error .attrError

/-- Python `d.get(key)` (default `None`, kept distinct from JSON `null`). -/
def pyGetOpt (d : Json) (key : List Char) : Except PyError (Option Json) :=
  match d with
  | .obj kvs => .ok (lookupKv key kvs)
  | _ => .error .attrError

/-- Python `v[0]`: first array element, one-character string of a string,
`KeyError` on a (string-keyed) dict, `TypeError` otherwise. -/
def pyIndex0 (v : Json) : Except PyError Json :=
  match v with
  | .arr [] => .error .indexError
  | .arr (x :: _) => .ok x
  | .str [] => .error .indexError
  | .str (c :: _) => .ok (.str [c])
  | .obj _ => .error .keyError
  | _ => .error .typeError

/-- The extraction `data.get("choices", [{}])[0].get("message", {}).get("content")`
from the 200-branch of `call_llm`. -/
def extractContent (data : Json) : Except PyError (Option Json) := do
  let choices ← pyGetD data ("choices").toList (Json.arr [Json.obj []])
  let first ← pyIndex0 choices
  let msg ← pyGetD first ("message").toList (Json.obj [])
  pyGetOpt msg ("content").toList

/-- `content.strip() if isinstance(content, str) else ""`. -/
def contentResult (c : Option Json) : List Char :=
  match c with
  | some (.str s) => pyStrip s
  | _ => []

/-- What one HTTP attempt observes: a transport failure, or a response with
status, raw body text, parsed body (`none` = body is not valid JSON) and the
`Retry-After` header (`none` = absent or falsy; `some none` = present but not
parseable as a float; `some (some q)` = parses to `q`). The float parsing and
JSON parsing of the `requests` library are abstracted into the event. -/
inductive AttemptEvent where
  | netFail
  | resp (status : Nat) (bodyText : List Char) (bodyJson : Option Json)
      (retryAfter : Option (Option ℚ))

/-- Terminal result of `call_llm`. -/
inductive LlmOutcome where
  | ok (content : List Char)
  | invalidJson (truncBody : List Char)
  | pyErr (e : PyError)
  | transportFail (attempts : Nat)
  | httpErr (status : Nat) (truncBody : List Char)
  | exhausted
deriving DecidableEq

/-- Backoff before jitter: `min(max_backoff, base_backoff * 2 ** (attempt - 1))`. -/
def backoffBase (baseB maxB : ℚ) (attempt : Nat) : ℚ :=
  min maxB (baseB * 2 ^ (attempt - 1))

/-- Jitter factor `0.7 + 0.6 * random.random()`. -/
def jitterOf (r : ℚ) : ℚ := 7 / 10 + 3 / 5 * r

/-- Sleep before a status-triggered retry: jittered backoff, overridden by a
numeric `Retry-After` header when larger. -/
def sleepFor (baseB maxB : ℚ) (rand : Nat → ℚ) (attempt : Nat)
    (ra : Option (Option ℚ)) : ℚ :=
  match ra with
  | some (some q) => max q (backoffBase baseB maxB attempt * jitterOf (rand attempt))
  | _ => backoffBase baseB maxB attempt * jitterOf (rand attempt)

/-- The attempt loop of `call_llm`. `attempt` is the 1-based attempt number;
`fuel` is the number of loop iterations left (`max_attempts + 1 - attempt`);
the result carries the outcome, the number of attempts performed, and the
sleeps in order. -/
def runAttempts (events : Nat → AttemptEvent) (rand : Nat → ℚ) (baseB maxB : ℚ)
    (maxAttempts : Nat) : Nat → Nat → LlmOutcome × Nat × List ℚ
  | _, 0 => (.exhausted, 0, [])
  | attempt, fuel + 1 =>
    match events attempt with
    | .netFail =>
      if attempt < maxAttempts then
        let r := runAttempts events rand baseB maxB maxAttempts (attempt + 1) fuel
        (r.1, r.2.1 + 1, backoffBase baseB maxB attempt * jitterOf (rand attempt) :: r.2.2)
      else (.transportFail attempt, 1, [])
    | .resp status bodyText bodyJson retryAfter =>
      if status = 200 then
        match bodyJson with
        | none => (.invalidJson (bodyText.take 500), 1, [])
        | some j =>
          match extractContent j with
          | .error e => (.pyErr e, 1, [])
          | .ok c => (.ok (contentResult c), 1, [])
      else if status ∈ RETRY_STATUS ∧ attempt < maxAttempts then
        let r := runAttempts events rand baseB maxB maxAttempts (attempt + 1) fuel
        (r.1, r.2.1 + 1, sleepFor baseB maxB rand attempt retryAfter :: r.2.2)
      else (.httpErr status (bodyText.take 500), 1, [])

/-- `call_llm` from `main.py`, over an abstract sequence of attempt events. -/
def call_llm (events : Nat → AttemptEvent) (rand : Nat → ℚ) (baseB maxB : ℚ)
    (maxAttempts : Nat) : LlmOutcome × Nat × List ℚ :=
  runAttempts events rand baseB maxB maxAttempts 1 maxAttempts

lemma retry_status_ne_200 (s : Nat) (hs : s ∈ RETRY_STATUS) : s ≠ 200 := by
  simp [RETRY_STATUS] at hs
  rcases hs with rfl | rfl | rfl | rfl | rfl | rfl | rfl | rfl <;> decide

lemma runAttempts_all_retryable (events : Nat → AttemptEvent) (rand : Nat → ℚ)
    (baseB maxB : ℚ) (maxAttempts : Nat) :
    ∀ fuel a, a + fuel = maxAttempts + 1 → 1 ≤ a → a ≤ maxAttempts →
      (∀ n, a ≤ n → n ≤ maxAttempts → ∃ s bt bj ra,
        events n = .resp s bt bj ra ∧ s ∈ RETRY_STATUS) →
      ∃ s bt bj ra sleeps, events maxAttempts = .resp s bt bj ra ∧
        runAttempts events rand baseB maxB maxAttempts a fuel =
          (.httpErr s (bt.take 500), maxAttempts + 1 - a, sleeps) := by
  intro fuel
  induction fuel with
  | zero => intro a h1 h2 h3 _; omega
  | succ fuel ih =>
    intro a h1 h2 h3 hall
    obtain ⟨s, bt, bj, ra, hev, hs⟩ := hall a (le_refl a) h3
    have hne : ¬ s = 200 := retry_status_ne_200 s hs
    by_cases hlt : a < maxAttempts
    · obtain ⟨s2, bt2, bj2, ra2, sl2, hev2, hrun⟩ := ih (a + 1) (by omega) (by omega)
        (by omega) (fun n hn1 hn2 => hall n (by omega) hn2)
      refine ⟨s2, bt2, bj2, ra2, sleepFor baseB maxB rand a ra :: sl2, hev2, ?_⟩
      have hred : runAttempts events rand baseB maxB maxAttempts a (fuel + 1) =
          ((runAttempts events rand baseB maxB maxAttempts (a + 1) fuel).1,
           (runAttempts events rand baseB maxB maxAttempts (a + 1) fuel).2.1 + 1,
           sleepFor baseB maxB rand a ra ::
             (runAttempts events rand baseB maxB maxAttempts (a + 1) fuel).2.2) := by
        simp only [runAttempts, hev]
        rw [if_neg hne, if_pos (⟨hs, hlt⟩ : s ∈ RETRY_STATUS ∧ a < maxAttempts)]
      rw [hred, hrun]
      simp
      omega
    · have ha : a = maxAttempts := by omega
      subst ha
      refine ⟨s, bt, bj, ra, [], hev, ?_⟩
      have hcount : a + 1 - a = 1 := by omega
      simp only [runAttempts, hev, hcount]
      rw [if_neg hne, if_neg (fun hand : s ∈ RETRY_STATUS ∧ a < a => absurd hand.2 (by omega))]

/-- C4: when every attempt receives a retryable HTTP status, `call_llm`
performs exactly `maxAttempts` attempts and fails with an error carrying the
final status code and at most the first 500 characters of the response body. -/
theorem call_llm_all_retryable (events : Nat → AttemptEvent) (rand : Nat → ℚ)
    (baseB maxB : ℚ) (maxAttempts : Nat) (hpos : 1 ≤ maxAttempts)
    (hall : ∀ n, 1 ≤ n → n ≤ maxAttempts → ∃ s bt bj ra,
      events n = .resp s bt bj ra ∧ s ∈ RETRY_STATUS) :
    ∃ s bt bj ra sleeps, events maxAttempts = .resp s bt bj ra ∧
      call_llm events rand baseB maxB maxAttempts =
        (.httpErr s (bt.take 500), maxAttempts, sleeps) ∧
      (bt.take 500).length ≤ 500 := by
  obtain ⟨s, bt, bj, ra, sl, hev, hrun⟩ := runAttempts_all_retryable events rand baseB maxB
    maxAttempts maxAttempts 1 (by omega) (le_refl 1) hpos hall
  refine ⟨s, bt, bj, ra, sl, hev, ?_, ?_⟩
  · unfold call_llm
    rw [hrun]
    simp
  · have := List.length_take 500 bt
    omega

/-- Witness for C4: an endpoint that always answers HTTP 500 with body `"x"` and
`maxAttempts = 2` yields the terminal HTTP error after exactly 2 attempts. -/
theorem call_llm_all_retryable_witness :
    (1 : Nat) ≤ 2 ∧
      ∃ s bt bj ra sleeps,
        (fun _ => AttemptEvent.resp 500 ['x'] none none) 2 =
          AttemptEvent.resp s bt bj ra ∧
        call_llm (fun _ => AttemptEvent.resp 500 ['x'] none none) (fun _ => 0) 1 10 2 =
          (.httpErr s (bt.take 500), 2, sleeps) ∧
        (bt.take 500).length ≤ 500 :=
  ⟨by decide, call_llm_all_retryable (fun _ => AttemptEvent.resp 500 ['x'] none none)
    (fun _ => 0) 1 10 2 (by decide)
    (fun n _ _ => ⟨500, ['x'], none, none, rfl, by decide⟩)⟩

/-- C5: a retry after a retryable status with attempts remaining sleeps for
`max(retryAfter, min(maxBackoff, baseBackoff * 2 ^ (attempt - 1)) * jitter)`
with `jitter ∈ [0.7, 1.3)`, the `Retry-After` value being ignored when absent
or not numeric. -/
theorem call_llm_retry_sleep (events : Nat → AttemptEvent) (rand : Nat → ℚ)
    (baseB maxB : ℚ) (maxAttempts attempt fuel : Nat) (s : Nat) (bt : List Char)
    (bj : Option Json) (ra : Option (Option ℚ))
    (hev : events attempt = .resp s bt bj ra) (hs : s ∈ RETRY_STATUS)
    (hlt : attempt < maxAttempts) (hr0 : 0 ≤ rand attempt) (hr1 : rand attempt < 1) :
    ∃ jitter, 7 / 10 ≤ jitter ∧ jitter < 13 / 10 ∧
      (runAttempts events rand baseB maxB maxAttempts attempt (fuel + 1)).2.2 =
        (match ra with
         | some (some q) => max q (min maxB (baseB * 2 ^ (attempt - 1)) * jitter)
         | _ => min maxB (baseB * 2 ^ (attempt - 1)) * jitter) ::
          (runAttempts events rand baseB maxB maxAttempts (attempt + 1) fuel).2.2 := by
  refine ⟨jitterOf (rand attempt), ?_, ?_, ?_⟩
  · unfold jitterOf; linarith
  · unfold jitterOf; linarith
  · have hne : ¬ s = 200 := retry_status_ne_200 s hs
    simp only [runAttempts, hev]
    rw [if_neg hne, if_pos (⟨hs, hlt⟩ : s ∈ RETRY_STATUS ∧ attempt < maxAttempts)]
    cases ra with
    | none => simp [sleepFor, backoffBase]
    | some o =>
      cases o with
      | none => simp [sleepFor, backoffBase]
      | some q => simp [sleepFor, backoffBase]

/-- Witness for C5: HTTP 429 with `Retry-After: 5`, `baseBackoff = 1`,
`maxBackoff = 10`, first of two attempts, zero randomness. -/
theorem call_llm_retry_sleep_witness :
    ((fun _ => AttemptEvent.resp 429 [] none (some (some 5))) 1 =
        AttemptEvent.resp 429 [] none (some (some 5))) ∧
      (429 : Nat) ∈ RETRY_STATUS ∧ (1 : Nat) < 2 ∧
      (0 : ℚ) ≤ (fun _ => (0 : ℚ)) 1 ∧ (fun _ => (0 : ℚ)) 1 < 1 ∧
      ∃ jitter, (7 : ℚ) / 10 ≤ jitter ∧ jitter < 13 / 10 ∧
        (runAttempts (fun _ => AttemptEvent.resp 429 [] none (some (some 5)))
            (fun _ => 0) 1 10 2 1 (0 + 1)).2.2 =
          max 5 (min 10 ((1 : ℚ) * 2 ^ (1 - 1)) * jitter) ::
            (runAttempts (fun _ => AttemptEvent.resp 429 [] none (some (some 5)))
              (fun _ => 0) 1 10 2 2 0).2.2 :=
  ⟨rfl, by decide, by decide, le_refl 0, by norm_num,
    call_llm_retry_sleep (fun _ => AttemptEvent.resp 429 [] none (some (some 5)))
      (fun _ => 0) 1 10 2 1 0 429 [] none (some (some 5)) rfl (by decide)
      (by decide) (le_refl 0) (by norm_num)⟩

/-- C6 counterexample: a 200 response whose body is the valid JSON
`\x7b"choices":[]\x7d` — so `choices[0].message.content` is certainly absent —
makes `call_llm` raise `IndexError` instead of returning the empty string. -/
theorem call_llm_empty_choices_cex :
    (call_llm (fun _ => AttemptEvent.resp 200 []
        (some (Json.obj [(("choices").toList, Json.arr [])])) none)
      (fun _ => 0) 1 10 5).1 = LlmOutcome.pyErr PyError.indexError ∧
    (call_llm (fun _ => AttemptEvent.resp 200 []
        (some (Json.obj [(("choices").toList, Json.arr [])])) none)
      (fun _ => 0) 1 10 5).1 ≠ LlmOutcome.ok [] := by
  refine ⟨by rfl, by decide⟩

/-- C6 (amended): for a 200 response with valid-JSON body on which the
traversal `choices → [0] → message → content` succeeds under Python
get-with-default semantics, a `content` that is absent or not a string makes
`call_llm` return the empty string rather than fail; bodies on which the
traversal itself raises (such as an empty `choices` array) abort instead. -/
theorem call_llm_missing_content (events : Nat → AttemptEvent) (rand : Nat → ℚ)
    (baseB maxB : ℚ) (maxAttempts : Nat) (bt : List Char) (j : Json)
    (ra : Option (Option ℚ)) (c : Option Json)
    (hpos : 1 ≤ maxAttempts)
    (hev : events 1 = .resp 200 bt (some j) ra)
    (hex : extractContent j = .ok c)
    (hns : ∀ s, c ≠ some (Json.str s)) :
    (call_llm events rand baseB maxB maxAttempts).1 = .ok [] := by
  have hcr : contentResult c = [] := by
    cases c with
    | none => rfl
    | some v =>
      cases v with
      | str s => exact absurd rfl (hns s)
      | null => rfl
      | bool b => rfl
      | num q => rfl
      | arr xs => rfl
      | obj kvs => rfl
  unfold call_llm
  obtain ⟨f, rfl⟩ : ∃ f, maxAttempts = f + 1 := ⟨maxAttempts - 1, by omega⟩
  simp [runAttempts, hev, hex, hcr]

/-- Witness for the amended C6 at the spec's example body
`\x7b"choices":[\x7b"message":\x7b\x7d\x7d]\x7d`. -/
theorem call_llm_missing_content_witness :
    (1 : Nat) ≤ 1 ∧
      (call_llm (fun _ => AttemptEvent.resp 200 []
          (some (Json.obj [(("choices").toList,
            Json.arr [Json.obj [(("message").toList, Json.obj [])]])])) none)
        (fun _ => 0) 1 10 1).1 = .ok [] :=
  ⟨le_refl 1,
    call_llm_missing_content
      (fun _ => AttemptEvent.resp 200 []
        (some (Json.obj [(("choices").toList,
          Json.arr [Json.obj [(("message").toList, Json.obj [])]])])) none)
      (fun _ => 0) 1 10 1 []
      (Json.obj [(("choices").toList,
        Json.arr [Json.obj [(("message").toList, Json.obj [])]])])
      none none (le_refl 1) rfl rfl (fun s h => by cases h)⟩

/-- Built-in fallback system instructions (`SYSTEM_FALLBACK` in `main.py`). -/
def SYSTEM_FALLBACK : List Char :=
  ("You are a senior code reviewer. Explain intent, behavior changes, risks, testing impact, and rollout/rollback guidance in concise, actionable bullets.").toList

/-- First conventional instruction path. -/
def ghPath : List Char := (".github/AGENTS.md").toList

/-- Second conventional instruction path. -/
def rootPath : List Char := ("AGENTS.md").toList

/-- The candidate loop of `load_agent_instructions`: the first truthy, existing
path wins; the filesystem is abstracted as `fs` mapping a path to its content
when the file exists and is readable. -/
def resolveLoop (fs : List Char → Option (List Char)) : List (List Char) → List Char
  | [] => SYSTEM_FALLBACK
  | p :: rest =>
    if p ≠ [] then
      match fs p with
      | some t => t
      | none => resolveLoop fs rest
    else resolveLoop fs rest

/-- `load_agent_instructions` from `main.py`: the candidate list is
`[explicit_path]` when the explicit path is truthy, and the two conventional
paths otherwise. -/
def load_agent_instructions (fs : List Char → Option (List Char))
    (explicit : Option (List Char)) : List Char :=
  match explicit with
  | some p =>
    if p = [] then resolveLoop fs [ghPath, rootPath] else resolveLoop fs [p]
  | none => resolveLoop fs [ghPath, rootPath]

/-- Resolver the claim describes: explicit path first, then the two
conventional paths, then the fallback. -/
def resolve_claimed (fs : List Char → Option (List Char))
    (explicit : Option (List Char)) : List Char :=
  resolveLoop fs ((match explicit with | some p => [p] | none => []) ++ [ghPath, rootPath])

lemma ghPath_ne_nil : ghPath ≠ [] := by decide

lemma rootPath_ne_nil : rootPath ≠ [] := by decide

/-- C10 counterexample: with an explicit path that does not exist while
`.github/AGENTS.md` exists with content `"X"`, the code returns the built-in
fallback, whereas the claimed resolution order (explicit, then the two
conventional paths) would return `"X"`: the conventional paths are consulted
only when no explicit path is given. -/
theorem load_agent_instructions_cex :
    load_agent_instructions
        (fun p => if p = (".github/AGENTS.md").toList then some ['X'] else none)
        (some (("custom.md").toList)) = SYSTEM_FALLBACK ∧
      resolve_claimed
        (fun p => if p = (".github/AGENTS.md").toList then some ['X'] else none)
        (some (("custom.md").toList)) = ['X'] ∧
      SYSTEM_FALLBACK ≠ (['X'] : List Char) := by
  refine ⟨by rfl, by rfl, by decide⟩

/-- C10 (amended): when a (truthy) explicit path is given, the resolver
returns its content if it exists and otherwise falls straight back to the
built-in string, without consulting the conventional paths; when no explicit
path is given, the first existing of `.github/AGENTS.md` and `AGENTS.md` wins,
with the built-in string as final fallback. The resolver is total, so it
always produces instruction text. -/
theorem load_agent_instructions_amended (fs : List Char → Option (List Char))
    (p : List Char) (hp : p ≠ []) :
    (load_agent_instructions fs (some p) =
      match fs p with
      | some t => t
      | none => SYSTEM_FALLBACK) ∧
    (load_agent_instructions fs none =
      match fs ghPath with
      | some t => t
      | none =>
        match fs rootPath with
        | some t => t
        | none => SYSTEM_FALLBACK) := by
  constructor
  · show (if p = [] then resolveLoop fs [ghPath, rootPath] else resolveLoop fs [p]) = _
    rw [if_neg hp]
    cases hfp : fs p with
    | some t => simp [resolveLoop, hp, hfp]
    | none => simp [resolveLoop, hp, hfp]
  · show resolveLoop fs [ghPath, rootPath] = _
    cases h1 : fs ghPath with
    | some t => simp [resolveLoop, ghPath_ne_nil, h1]
    | none =>
      cases h2 : fs rootPath with
      | some t => simp [resolveLoop, ghPath_ne_nil, rootPath_ne_nil, h1, h2]
      | none => simp [resolveLoop, ghPath_ne_nil, rootPath_ne_nil, h1, h2]

/-- Witness for the amended C10: explicit path `"custom.md"` existing with
content `"Y"` is returned as-is. -/
theorem load_agent_instructions_amended_witness :
    (("custom.md").toList ≠ ([] : List Char)) ∧
      load_agent_instructions (fun _ => some ['Y']) (some (("custom.md").toList)) = ['Y'] := by
  have h := load_agent_instructions_amended (fun _ => some ['Y'])
    (("custom.md").toList) (by decide)
  exact ⟨by decide, h.1⟩

/-- Observable side effects of `main`, in program order. -/
inductive Effect where
  | echoErr (msg : List Char)
  | echoOut (msg : List Char)
  | writeFile (path content : List Char)
deriving DecidableEq

/-- Error line for missing configuration. -/
def missingEnvMsg : List Char :=
  ("Missing required env vars: LLM_API_URL, LLM_API_KEY, LLM_MODEL_NAME").toList

/-- Message printed for an empty diff. -/
def noChangesMsg : List Char := ("Error: No changes detected").toList

/-- Fixed heading of the review document. -/
def mdHeader : List Char := ("# AI PR Review\n\n").toList

/-- `main` from `main.py` at the decision level: environment values are
`Option` (with Python falsiness: absent or empty fails), `diffFile` is the
readable diff content (`none` = unreadable path, which raises), and the
review pipeline is abstracted as its outcome. Returns the process exit code
(any non-zero for an uncaught exception) and the effects performed. -/
def mainRun (url key modelName : Option (List Char)) (diffFile : Option (List Char))
    (pipeline : Except (List Char) (List Char)) (outPath : List Char) :
    Nat × List Effect :=
  if url.getD [] = [] ∨ key.getD [] = [] ∨ modelName.getD [] = [] then
    (1, [.echoErr missingEnvMsg])
  else
    match diffFile with
    | none => (1, [])
    | some d =>
      if pyStrip d = [] then (1, [.echoOut noChangesMsg])
      else
        match pipeline with
        | .error _ => (1, [])
        | .ok review =>
          (0, [.writeFile outPath (mdHeader ++ pyStrip review ++ ['\n']),
               .echoOut outPath])

/-- C7: every listed failure (missing or empty required configuration,
unreadable diff, empty or whitespace-only diff, pipeline failure) exits
non-zero; a non-zero exit writes no file; and a write happens only with the
pipeline's successful review, under exit code zero. -/
theorem main_no_partial_write (url key modelName : Option (List Char))
    (diffFile : Option (List Char)) (pipeline : Except (List Char) (List Char))
    (outPath : List Char) :
    ((url.getD [] = [] ∨ key.getD [] = [] ∨ modelName.getD [] = [] ∨ diffFile = none ∨
        (∃ d, diffFile = some d ∧ pyStrip d = []) ∨ (∃ e, pipeline = .error e)) →
      (mainRun url key modelName diffFile pipeline outPath).1 ≠ 0) ∧
    ((mainRun url key modelName diffFile pipeline outPath).1 ≠ 0 →
      ∀ p c, Effect.writeFile p c ∉ (mainRun url key modelName diffFile pipeline outPath).2) ∧
    (∀ p c, Effect.writeFile p c ∈ (mainRun url key modelName diffFile pipeline outPath).2 →
      ∃ review, pipeline = .ok review ∧ p = outPath ∧
        c = mdHeader ++ pyStrip review ++ ['\n'] ∧
        (mainRun url key modelName diffFile pipeline outPath).1 = 0) := by
  by_cases henv : url.getD [] = [] ∨ key.getD [] = [] ∨ modelName.getD [] = []
  · simp [mainRun, henv]
  · cases diffFile with
    | none => simp [mainRun, henv]
    | some d =>
      by_cases hstrip : pyStrip d = []
      · simp [mainRun, henv, hstrip]
      · cases pipeline with
        | error e => simp [mainRun, henv, hstrip]
        | ok review =>
          refine ⟨?_, ?_, ?_⟩
          · intro hbad
            rcases hbad with h | h | h | h | ⟨d2, hd2, hs2⟩ | ⟨e, he⟩
            · exact absurd (Or.inl h) henv
            · exact absurd (Or.inr (Or.inl h)) henv
            · exact absurd (Or.inr (Or.inr h)) henv
            · cases h
            · cases hd2; exact absurd hs2 hstrip
            · cases he
          · intro hzero
            exact absurd (by simp [mainRun, henv, hstrip]) hzero
          · intro p c hmem
            simp [mainRun, henv, hstrip] at hmem
            exact ⟨review, rfl, hmem.1, hmem.2, by simp [mainRun, henv, hstrip]⟩

/-- Witness for C7: with configuration present but an unreadable diff path,
the run exits non-zero and writes nothing. -/
theorem main_no_partial_write_witness :
    (mainRun (some ['u']) (some ['k']) (some ['m']) none (.error []) ['o']).1 ≠ 0 ∧
      ∀ p c, Effect.writeFile p c ∉
        (mainRun (some ['u']) (some ['k']) (some ['m']) none (.error []) ['o']).2 := by
  have h := main_no_partial_write (some ['u']) (some ['k']) (some ['m']) none (.error []) ['o']
  have hz := h.1 (Or.inr (Or.inr (Or.inr (Or.inl rfl))))
  exact ⟨hz, h.2.1 hz⟩
